import Mathlib

/-!
Verification of the Plant_Generator repository (L-system plant generation and
mutation). The Python sources `l_system.py` and `plant.py` are shallowly
embedded below: strings become `List Char`, floats become `ℚ` where only
field arithmetic occurs and `ℝ` where trigonometry occurs, and every random
draw of the source (`random.choices`, `random.randint`, `random.uniform`,
`random.sample`-based index selection) becomes an explicit oracle argument
constrained to the support of the corresponding distribution.
-/

namespace PlantGen

/-- The plant alphabet `'FfXx[]+-'` passed by `Plant.__init__` to
`LSystem.__init__`. -/
def alphabetChars : List Char := ['F', 'f', 'X', 'x', '[', ']', '+', '-']

/-- `alphabetOK s` holds when every character of `s` belongs to the plant
alphabet. -/
def alphabetOK (s : List Char) : Bool :=
  s.all (fun c => alphabetChars.contains c)

/-- Bracket-counter scan: processes the string keeping the number of
currently-open `[` brackets; returns `none` when a `]` appears with no
open bracket, otherwise the final open count. -/
def bracketRun : List Char → Nat → Option Nat
  | [], n => some n
  | c :: rest, n =>
    if c = '[' then bracketRun rest (n + 1)
    else if c = ']' then
      match n with
      | 0 => none
      | k + 1 => bracketRun rest k
    else bracketRun rest n

/-- A string is bracket-balanced when the scan starting from zero open
brackets never dips below zero and ends with zero open brackets. -/
def isBalanced (s : List Char) : Bool :=
  bracketRun s 0 == some 0

theorem bracketRun_append (xs ys : List Char) (n : Nat) :
    bracketRun (xs ++ ys) n = (bracketRun xs n).bind (bracketRun ys) := by
  induction xs generalizing n with
  | nil => simp [bracketRun]
  | cons c rest ih =>
    by_cases h1 : c = '['
    · simp [bracketRun, h1, ih]
    · by_cases h2 : c = ']'
      · cases n with
        | zero => simp [bracketRun, h1, h2]
        | succ k => simp [bracketRun, h1, h2, ih]
      · simp [bracketRun, h1, h2, ih]

/-- A list containing no bracket characters leaves the bracket counter
unchanged. -/
theorem bracketRun_no_brackets (xs : List Char)
    (h : ∀ c ∈ xs, c ≠ '[' ∧ c ≠ ']') (n : Nat) :
    bracketRun xs n = some n := by
  induction xs with
  | nil => rfl
  | cons c rest ih =>
    have hc := h c (List.mem_cons_self c rest)
    have hrest : ∀ c' ∈ rest, c' ≠ '[' ∧ c' ≠ ']' :=
      fun c' hm => h c' (List.mem_cons_of_mem c hm)
    simp [bracketRun, hc.1, hc.2, ih hrest]

/-!
## Mutation operator weights (`plant.py`, `get_mutated_branch`, lines 312-339)
-/

/-- The character-presence bitmask of `get_mutated_branch`:
`chars = sum([(char in branch) * 2 ** i for i, char in enumerate('FfXx[]+-')])`
(bit 0 = `F`, 1 = `f`, 2 = `X`, 3 = `x`, 4 = `[`, 5 = `]`, 6 = `+`,
7 = `-`). -/
def charsVal (branch : List Char) : Nat :=
  (if branch.contains 'F' then 1 else 0)
    + 2 * (if branch.contains 'f' then 1 else 0)
    + 4 * (if branch.contains 'X' then 1 else 0)
    + 8 * (if branch.contains 'x' then 1 else 0)
    + 16 * (if branch.contains '[' then 1 else 0)
    + 32 * (if branch.contains ']' then 1 else 0)
    + 64 * (if branch.contains '+' then 1 else 0)
    + 128 * (if branch.contains '-' then 1 else 0)

/-- The gated operator weights of `get_mutated_branch`: base weights
`[4, 4, 4, 4, 3, 3, 2, 3, 3, 2]`, with each `if not chars & mask:` test of
the source forcing the corresponding entries to 0, and the final
`if branch.count('X') > 4:` test forcing entries 5 and 7 to 0. -/
def mutationWeights (branch : List Char) : List Nat :=
  let chars := charsVal branch
  let w0 := [4, 4, 4, 4, 3, 3, 2, 3, 3, 2]
  let w1 := if chars &&& 0b11000000 = 0 then (w0.set 0 0).set 1 0 else w0
  let w2 := if chars &&& 0b00000001 = 0 then w1.set 2 0 else w1
  let w3 := if chars &&& 0b00000010 = 0 then (w2.set 3 0).set 4 0 else w2
  let w4 := if chars &&& 0b11000011 = 0 then w3.set 5 0 else w3
  let w5 := if chars &&& 0b00000100 = 0 then w4.set 6 0 else w4
  let w6 := if chars &&& 0b00001000 = 0 then w5.set 7 0 else w5
  let w7 := if chars &&& 0b00010000 = 0 then w6.set 8 0 else w6
  if 4 < branch.count 'X' then (w7.set 5 0).set 7 0 else w7

/-- Modelled from the spec: the spec's data model calls `X` the leaf-major
symbol and `x` the leaf-minor symbol, so "leaf count" in the spec's words is
the number of occurrences of either leaf symbol.  (The source's gate at
`plant.py` line 334 counts only `'X'`.) -/
def specLeafCount (branch : List Char) : Nat :=
  branch.count 'X' + branch.count 'x'

/-- Proof helper: `mutationWeights` as a function of the eight
character-presence booleans and the leaf-count-gate boolean, so that its
pointwise characterization can be settled by exhaustive boolean evaluation. -/
def weightsOf (bF bf bX bx bo bc bp bm big : Bool) : List Nat :=
  let chars := (if bF then 1 else 0)
    + 2 * (if bf then 1 else 0)
    + 4 * (if bX then 1 else 0)
    + 8 * (if bx then 1 else 0)
    + 16 * (if bo then 1 else 0)
    + 32 * (if bc then 1 else 0)
    + 64 * (if bp then 1 else 0)
    + 128 * (if bm then 1 else 0)
  let w0 := [4, 4, 4, 4, 3, 3, 2, 3, 3, 2]
  let w1 := if chars &&& 0b11000000 = 0 then (w0.set 0 0).set 1 0 else w0
  let w2 := if chars &&& 0b00000001 = 0 then w1.set 2 0 else w1
  let w3 := if chars &&& 0b00000010 = 0 then (w2.set 3 0).set 4 0 else w2
  let w4 := if chars &&& 0b11000011 = 0 then w3.set 5 0 else w3
  let w5 := if chars &&& 0b00000100 = 0 then w4.set 6 0 else w4
  let w6 := if chars &&& 0b00001000 = 0 then w5.set 7 0 else w5
  let w7 := if chars &&& 0b00010000 = 0 then w6.set 8 0 else w6
  if big then (w7.set 5 0).set 7 0 else w7

/-- Claim C2 (amended): `get_mutated_branch` starts from base weights
`[4,4,4,4,3,3,2,3,3,2]` and forces an operator weight to 0 exactly when its
precondition fails: operators 0 and 1 require a `+` or `-`, operator 2
requires `F`, operators 3 and 4 require `f`, operator 5 requires one of
`F`,`f`,`+`,`-`, operator 6 requires `X`, operator 7 requires `x`,
operator 9 is unconditional, operator 8 requires `[`; and operators 5 and 7
are additionally disabled when the branch's count of uppercase `X` symbols
exceeds 4. -/
theorem mutation_weights_gating (branch : List Char) :
    mutationWeights branch =
      [if (branch.contains '+' || branch.contains '-') = true then 4 else 0,
       if (branch.contains '+' || branch.contains '-') = true then 4 else 0,
       if branch.contains 'F' = true then 4 else 0,
       if branch.contains 'f' = true then 4 else 0,
       if branch.contains 'f' = true then 3 else 0,
       if (branch.contains 'F' || branch.contains 'f' || branch.contains '+'
             || branch.contains '-') = true ∧ branch.count 'X' ≤ 4
         then 3 else 0,
       if branch.contains 'X' = true then 2 else 0,
       if branch.contains 'x' = true ∧ branch.count 'X' ≤ 4 then 3 else 0,
       if branch.contains '[' = true then 3 else 0,
       2] := by
  have key : ∀ bF bf bX bx bo bc bp bm big : Bool,
      weightsOf bF bf bX bx bo bc bp bm big =
        [if (bp || bm) = true then 4 else 0,
         if (bp || bm) = true then 4 else 0,
         if bF = true then 4 else 0,
         if bf = true then 4 else 0,
         if bf = true then 3 else 0,
         if (bF || bf || bp || bm) = true ∧ big = false then 3 else 0,
         if bX = true then 2 else 0,
         if bx = true ∧ big = false then 3 else 0,
         if bo = true then 3 else 0,
         2] := by decide
  have conn : mutationWeights branch =
      weightsOf (branch.contains 'F') (branch.contains 'f')
        (branch.contains 'X') (branch.contains 'x') (branch.contains '[')
        (branch.contains ']') (branch.contains '+') (branch.contains '-')
        (decide (4 < branch.count 'X')) := by
    unfold mutationWeights weightsOf charsVal
    by_cases h : 4 < branch.count 'X' <;> simp [h]
  rw [conn, key]
  simp [decide_eq_false_iff_not, not_lt]

/-- Claim C2, counterexample to the claim as stated: reading "leaf count" as
the number of leaf symbols (`X` or `x`, the spec's leaf-major and leaf-minor
symbols), the branch `"fxxxxx"` has leaf count 5 > 4, yet the source leaves
operators 5 and 7 enabled (weight 3 each), because the gate at `plant.py`
line 334 counts only uppercase `X`. -/
theorem mutation_weights_leafcount_counterexample :
    ¬ (4 < specLeafCount ['f', 'x', 'x', 'x', 'x', 'x'] →
        (mutationWeights ['f', 'x', 'x', 'x', 'x', 'x']).getD 5 0 = 0 ∧
        (mutationWeights ['f', 'x', 'x', 'x', 'x', 'x']).getD 7 0 = 0) := by
  decide

/-!
## L-system rule tables (`l_system.py`)

`Rules = dict[str, tuple[tuple[str, ...], tuple[float, ...]] | str]`: a rule
body is either a fixed replacement string or a weighted choice among
candidate replacement strings.  The dict is embedded as an association
list; weights are embedded as exact rationals.
-/

/-- A rule body: `str` (fixed replacement) or
`tuple[tuple[str, ...], tuple[float, ...]]` (weighted choice). -/
inductive RuleBody where
  | fixed (replacement : List Char)
  | weighted (population : List (List Char)) (weights : List ℚ)
deriving DecidableEq

/-- The rule table `Rules`, as an association list keyed by symbol. -/
abbrev Rules := List (Char × RuleBody)

/-- Dict lookup `self.rules[symbol]` / `symbol in self.rules`. -/
def lookupRule (rules : Rules) (c : Char) : Option RuleBody :=
  match rules.find? (fun p => p.1 == c) with
  | some p => some p.2
  | none => none

/-- Dict union `a | b` (right operand wins on key conflicts; only lookup
order matters for the embedding, so the right table is placed first). -/
def mergeRules (a b : Rules) : Rules := b ++ a

/-!
## `Plant.get_length_rule` (`plant.py`, lines 240-252)
-/

/-- `Plant.get_length_rule(length)`: starts with weights `[0,0,0,0]`, sets
`weights[a] = b - length` and `weights[b] = length - a` for `a = int(length)`
and `b = a + 1`, and returns `{'F': (('F', 'Ff', 'FF', 'FfF'), weights)}`.
Python's `int()` truncates toward zero; for the nonnegative lengths the
program uses it coincides with `⌊length⌋`, embedded as `length.floor.toNat`. -/
def get_length_rule (length : ℚ) : Rules :=
  let a : ℕ := ⌊length⌋.toNat
  let b : ℕ := a + 1
  let weights : List ℚ := ([0, 0, 0, 0].set a ((b : ℚ) - length)).set b (length - (a : ℚ))
  [('F', RuleBody.weighted [['F'], ['F', 'f'], ['F', 'F'], ['F', 'f', 'F']] weights)]

/-- Evaluation of `get_length_rule` at 1.5: `a = 1`, `b = 2`,
`weights[1] = 0.5`, `weights[2] = 0.5`. -/
theorem length_rule_eval :
    get_length_rule (3 / 2) =
      [('F', RuleBody.weighted [['F'], ['F', 'f'], ['F', 'F'], ['F', 'f', 'F']]
        [0, 1 / 2, 1 / 2, 0])] := by
  have hfloor : ⌊(3 / 2 : ℚ)⌋ = 1 := by norm_num
  unfold get_length_rule
  rw [hfloor]
  norm_num [List.set]

/-- Claim C8 (amended): `get_length_rule(1.5)` returns the weighted rule for
`'F'` over the candidates `('F', 'Ff', 'FF', 'FfF')` whose weights split
1.5 evenly between candidate index 1 (`'Ff'`) and candidate index 2
(`'FF'`): the weight list is `(0, 0.5, 0.5, 0)`. -/
theorem get_length_rule_three_halves :
    get_length_rule (3 / 2) =
      [('F', RuleBody.weighted [['F'], ['F', 'f'], ['F', 'F'], ['F', 'f', 'F']]
        [0, 1 / 2, 1 / 2, 0])] :=
  length_rule_eval

/-- Claim C8, counterexample to the claim as stated: `get_length_rule(1.5)`
does not give candidate `'F'` (index 0) weight 0.5 — its weight is 0; the
positive weights sit at indices 1 and 2, i.e. on `'Ff'` and `'FF'`, not on
`'F'` and `'Ff'`. -/
theorem get_length_rule_counterexample :
    ¬ (∃ rest : List ℚ,
        get_length_rule (3 / 2) =
          [('F', RuleBody.weighted [['F'], ['F', 'f'], ['F', 'F'], ['F', 'f', 'F']]
            ((1 / 2 : ℚ) :: (1 / 2 : ℚ) :: rest))]) := by
  rintro ⟨rest, h⟩
  rw [length_rule_eval] at h
  simp only [List.cons.injEq, Prod.mk.injEq, RuleBody.weighted.injEq,
    true_and, and_true] at h
  exact absurd h.1 (by norm_num)

/-!
## `get_bracket_indexes` (`plant.py`, lines 399-410)

The source picks a random `[` (index `p`), then scans forward with a
`while True:` loop: every `[` seen becomes the new `start_index`, and the
first `]` seen returns `(start_index, index)`.  The unboundedly-running loop
is embedded with explicit fuel; `none` models the `IndexError` the source
would raise when the scan runs past the end of the string (which the
bracket-balance invariant rules out).
-/

/-- One step of the forward scan of `get_bracket_indexes`. -/
def bracketScan (s : List Char) : Nat → Nat → Nat → Option (Nat × Nat)
  | 0, _, _ => none
  | fuel + 1, start, idx =>
    match s[idx]? with
    | none => none
    | some c =>
      if c = '[' then bracketScan s fuel idx (idx + 1)
      else if c = ']' then some (start, idx)
      else bracketScan s fuel start (idx + 1)

/-- `get_bracket_indexes(string)` with the randomly sampled `[` position
passed explicitly as `p`.  `s.length + 1` fuel always suffices: the scan
either returns at the first `]` at or after `p`, or walks off the end of
the string after at most `s.length + 1 - p` probes. -/
def get_bracket_indexes (s : List Char) (p : Nat) : Option (Nat × Nat) :=
  bracketScan s (s.length + 1) p p

/-- Scan invariant: starting at `idx` with `start` pointing at the most
recent `[` and no brackets strictly between `start` and `idx`, if some `]`
occurs at or after `idx` then the scan returns a `[`/`]` pair enclosing no
other bracket. -/
theorem bracketScan_spec (s : List Char) :
    ∀ fuel start idx,
      s[start]? = some '[' →
      start ≤ idx →
      (∀ w, start < w → w < idx → ∀ c, s[w]? = some c → c ≠ '[' ∧ c ≠ ']') →
      (∃ q, idx ≤ q ∧ s[q]? = some ']') →
      s.length + 1 - idx ≤ fuel →
      ∃ i j, bracketScan s fuel start idx = some (i, j) ∧
        start ≤ i ∧ i < j ∧ s[i]? = some '[' ∧ s[j]? = some ']' ∧
        (∀ w, i < w → w < j → ∀ c, s[w]? = some c → c ≠ '[' ∧ c ≠ ']') := by
  intro fuel
  induction fuel with
  | zero =>
    intro start idx _ _ _ hq hfuel
    obtain ⟨q, hq1, hq2⟩ := hq
    have hqlen : q < s.length := by
      rcases List.getElem?_eq_some_iff.mp hq2 with ⟨h, _⟩
      exact h
    omega
  | succ fuel ih =>
    intro start idx hstart hle hmid hq hfuel
    obtain ⟨q, hq1, hq2⟩ := hq
    have hqlen : q < s.length := by
      rcases List.getElem?_eq_some_iff.mp hq2 with ⟨h, _⟩
      exact h
    have hidxlen : idx < s.length := by omega
    have hcsome : ∃ c, s[idx]? = some c := by
      rcases List.getElem?_eq_some_iff.mpr ⟨hidxlen, rfl⟩ with h
      exact ⟨_, h⟩
    obtain ⟨c, hc⟩ := hcsome
    by_cases h1 : c = '['
    · subst h1
      have hq' : ∃ q', idx + 1 ≤ q' ∧ s[q']? = some ']' := by
        refine ⟨q, ?_, hq2⟩
        rcases Nat.lt_or_ge idx q with h | h
        · omega
        · exfalso
          have : q = idx := by omega
          subst this
          rw [hc] at hq2
          exact absurd (Option.some.inj hq2) (by decide)
      obtain ⟨i, j, hscan, hi1, hij, hi2, hj2, hmid'⟩ :=
        ih idx (idx + 1) hc (by omega) (by intro w hw1 hw2; omega) hq' (by omega)
      refine ⟨i, j, ?_, by omega, hij, hi2, hj2, hmid'⟩
      simpa [bracketScan, hc] using hscan
    · by_cases h2 : c = ']'
      · subst h2
        have hne : start ≠ idx := by
          intro h
          subst h
          rw [hc] at hstart
          exact absurd (Option.some.inj hstart) (by decide)
        refine ⟨start, idx, ?_, le_refl start, by omega, hstart, hc, ?_⟩
        · simp [bracketScan, hc]
        · intro w hw1 hw2
          exact hmid w hw1 hw2
      · have hq' : ∃ q', idx + 1 ≤ q' ∧ s[q']? = some ']' := by
          refine ⟨q, ?_, hq2⟩
          rcases Nat.lt_or_ge idx q with h | h
          · omega
          · exfalso
            have : q = idx := by omega
            subst this
            rw [hc] at hq2
            exact h2 (Option.some.inj hq2)
        have hmid' : ∀ w, start < w → w < idx + 1 → ∀ c', s[w]? = some c' →
            c' ≠ '[' ∧ c' ≠ ']' := by
          intro w hw1 hw2 c' hc'
          rcases Nat.lt_or_ge w idx with h | h
          · exact hmid w hw1 h c' hc'
          · have : w = idx := by omega
            subst this
            rw [hc] at hc'
            have := Option.some.inj hc'
            subst this
            exact ⟨h1, h2⟩
        obtain ⟨i, j, hscan, hi1, hij, hi2, hj2, hmid''⟩ :=
          ih start (idx + 1) hstart (by omega) hmid' hq' (by omega)
        refine ⟨i, j, ?_, hi1, hij, hi2, hj2, hmid''⟩
        simpa [bracketScan, hc, h1, h2] using hscan

/-- If the bracket scan finishes at zero starting from a positive open
count, a closing bracket must occur in the string. -/
theorem close_mem_of_bracketRun (t : List Char) :
    ∀ n, bracketRun t (n + 1) = some 0 → ']' ∈ t := by
  induction t with
  | nil => intro n h; simp [bracketRun] at h
  | cons c rest ih =>
    intro n h
    by_cases h1 : c = '['
    · simp only [bracketRun, h1, if_pos rfl] at h
      exact List.mem_cons_of_mem _ (ih (n + 1) h)
    · by_cases h2 : c = ']'
      · subst h2; exact List.mem_cons_self _ _
      · have h' : bracketRun rest (n + 1) = some 0 := by
          simpa [bracketRun, h1, h2] using h
        exact List.mem_cons_of_mem _ (ih n h')

/-- In a balanced string, a closing bracket occurs at or after every
opening bracket. -/
theorem exists_close_of_balanced (s : List Char) (p : Nat)
    (hbal : isBalanced s = true) (hp : s[p]? = some '[') :
    ∃ q, p ≤ q ∧ s[q]? = some ']' := by
  have hrun : bracketRun s 0 = some 0 := by
    have h := hbal
    simp only [isBalanced, beq_iff_eq] at h
    exact h
  obtain ⟨hplen, hpe⟩ := List.getElem?_eq_some_iff.mp hp
  have hsplit : s = s.take p ++ '[' :: s.drop (p + 1) := by
    conv_lhs => rw [← List.take_append_drop p s]
    rw [List.drop_eq_getElem_cons hplen, hpe]
  rw [hsplit, bracketRun_append] at hrun
  cases htake : bracketRun (s.take p) 0 with
  | none => rw [htake] at hrun; simp at hrun
  | some k =>
    rw [htake] at hrun
    simp only [Option.some_bind] at hrun
    have hrest : bracketRun (s.drop (p + 1)) (k + 1) = some 0 := by
      simpa [bracketRun] using hrun
    have hmem : ']' ∈ s.drop (p + 1) := close_mem_of_bracketRun _ k hrest
    obtain ⟨m, hm⟩ := List.mem_iff_getElem?.mp hmem
    rw [List.getElem?_drop] at hm
    exact ⟨p + 1 + m, by omega, hm⟩

/-- Deleting a `[` ... `]` span that encloses no other bracket preserves
bracket balance. -/
theorem isBalanced_delete_span (s : List Char) (i j : Nat) (hij : i < j)
    (hi : s[i]? = some '[') (hj : s[j]? = some ']')
    (hmid : ∀ w, i < w → w < j → ∀ c, s[w]? = some c → c ≠ '[' ∧ c ≠ ']')
    (hbal : isBalanced s = true) :
    isBalanced (s.take i ++ s.drop (j + 1)) = true := by
  obtain ⟨hilen, hie⟩ := List.getElem?_eq_some_iff.mp hi
  obtain ⟨hjlen, hje⟩ := List.getElem?_eq_some_iff.mp hj
  have hjtake : (s.take j).length = j := by
    rw [List.length_take]; omega
  -- decompose s as  take i ++ '[' :: mid ++ ']' :: drop (j+1)
  have hsplit : s = s.take i ++ '[' ::
      (((s.take j).drop (i + 1)) ++ ']' :: s.drop (j + 1)) := by
    conv_lhs => rw [← List.take_append_drop i s]
    rw [List.drop_eq_getElem_cons hilen, hie]
    congr 1
    congr 1
    conv_lhs => rw [← List.take_append_drop j s]
    rw [List.drop_append_eq_append_drop, hjtake]
    have : i + 1 - j = 0 := by omega
    rw [this, List.drop_zero]
    congr 1
    rw [List.drop_eq_getElem_cons hjlen, hje]
  have hmidnb : ∀ c ∈ (s.take j).drop (i + 1), c ≠ '[' ∧ c ≠ ']' := by
    intro c hc
    obtain ⟨m, hmlt, hme⟩ := List.mem_iff_getElem.mp hc
    have hlen : ((s.take j).drop (i + 1)).length = j - (i + 1) := by
      rw [List.length_drop, List.length_take]; omega
    rw [hlen] at hmlt
    have hwlt : i + 1 + m < j := by omega
    have hq : s[i + 1 + m]? = some c := by
      have h1 : ((s.take j).drop (i + 1))[m]? = some c :=
        List.getElem?_eq_some_iff.mpr ⟨by rw [hlen]; omega, hme⟩
      rw [List.getElem?_drop, List.getElem?_take_of_lt hwlt] at h1
      exact h1
    exact hmid (i + 1 + m) (by omega) hwlt c hq
  have hrun : bracketRun s 0 = some 0 := by
    have h := hbal
    simp only [isBalanced, beq_iff_eq] at h
    exact h
  rw [hsplit, bracketRun_append] at hrun
  cases htake : bracketRun (s.take i) 0 with
  | none => rw [htake] at hrun; simp at hrun
  | some k =>
    rw [htake] at hrun
    simp only [Option.some_bind] at hrun
    have hrun2 : bracketRun (((s.take j).drop (i + 1)) ++ ']' :: s.drop (j + 1))
        (k + 1) = some 0 := by
      simpa [bracketRun] using hrun
    rw [bracketRun_append, bracketRun_no_brackets _ hmidnb] at hrun2
    simp only [Option.some_bind] at hrun2
    have hrun3 : bracketRun (s.drop (j + 1)) k = some 0 := by
      simpa [bracketRun] using hrun2
    simp only [isBalanced, beq_iff_eq]
    rw [bracketRun_append, htake]
    simpa using hrun3

/-- Claim C6: for every bracket-balanced string with a `[` at position `p`,
`get_bracket_indexes` terminates normally (the forward scan reaches a `]`
before running past the end) and returns `(i, j)` with `i < j`,
`string[i] = '['`, `string[j] = ']'`, no bracket strictly between them, and
deleting the inclusive span `[i, j]` preserves bracket balance. -/
theorem get_bracket_indexes_spec (s : List Char) (p : Nat)
    (hbal : isBalanced s = true) (hp : s[p]? = some '[') :
    ∃ i j, get_bracket_indexes s p = some (i, j) ∧ i < j ∧
      s[i]? = some '[' ∧ s[j]? = some ']' ∧
      (∀ w, i < w → w < j → ∀ c, s[w]? = some c → c ≠ '[' ∧ c ≠ ']') ∧
      isBalanced (s.take i ++ s.drop (j + 1)) = true := by
  obtain ⟨i, j, hscan, hi1, hij, hi2, hj2, hmid⟩ :=
    bracketScan_spec s (s.length + 1) p p hp (le_refl p)
      (by intro w hw1 hw2; omega)
      (exists_close_of_balanced s p hbal hp) (by omega)
  exact ⟨i, j, hscan, hij, hi2, hj2, hmid,
    isBalanced_delete_span s i j hij hi2 hj2 hmid hbal⟩

/-- Claim C6, witness: on the balanced string `"[]"` with the `[` chosen at
position 0, `get_bracket_indexes` returns a correct bracket pair. -/
theorem get_bracket_indexes_spec_witness :
    ∃ i j, get_bracket_indexes ['[', ']'] 0 = some (i, j) ∧ i < j ∧
      (['[', ']'] : List Char)[i]? = some '[' ∧
      (['[', ']'] : List Char)[j]? = some ']' ∧
      (∀ w, i < w → w < j → ∀ c, (['[', ']'] : List Char)[w]? = some c →
        c ≠ '[' ∧ c ≠ ']') ∧
      isBalanced ((['[', ']'] : List Char).take i ++
        (['[', ']'] : List Char).drop (j + 1)) = true :=
  get_bracket_indexes_spec ['[', ']'] 0 (by decide) (by decide)

/-!
## Balance and alphabet preservation helpers
-/

/-- A segment that leaves the bracket counter unchanged ("neutral") can be
inserted anywhere in a balanced string. -/
theorem isBalanced_insert (s x : List Char) (i : Nat)
    (hx : ∀ n, bracketRun x n = some n) (h : isBalanced s = true) :
    isBalanced (s.take i ++ x ++ s.drop i) = true := by
  have hs : bracketRun s 0 = some 0 := by
    have h' := h
    simp only [isBalanced, beq_iff_eq] at h'
    exact h'
  conv_lhs at hs => rw [← List.take_append_drop i s]
  rw [bracketRun_append] at hs
  cases htake : bracketRun (s.take i) 0 with
  | none => rw [htake] at hs; simp at hs
  | some k =>
    rw [htake] at hs
    simp only [Option.some_bind] at hs
    simp only [isBalanced, beq_iff_eq]
    rw [bracketRun_append, bracketRun_append, htake]
    simp only [Option.some_bind, hx k]
    exact hs

/-- Replacing a non-bracket character by a non-bracket character preserves
balance. -/
theorem isBalanced_replace (s : List Char) (i : Nat) (c cNew : Char)
    (hq : s[i]? = some c) (hc : c ≠ '[' ∧ c ≠ ']')
    (hnew : cNew ≠ '[' ∧ cNew ≠ ']') (h : isBalanced s = true) :
    isBalanced (s.take i ++ cNew :: s.drop (i + 1)) = true := by
  obtain ⟨hilen, hie⟩ := List.getElem?_eq_some_iff.mp hq
  have hs : bracketRun s 0 = some 0 := by
    have h' := h
    simp only [isBalanced, beq_iff_eq] at h'
    exact h'
  conv_lhs at hs => rw [← List.take_append_drop i s]
  rw [List.drop_eq_getElem_cons hilen, hie, bracketRun_append] at hs
  cases htake : bracketRun (s.take i) 0 with
  | none => rw [htake] at hs; simp at hs
  | some k =>
    rw [htake] at hs
    simp only [Option.some_bind] at hs
    have hdroprun : bracketRun (s.drop (i + 1)) k = some 0 := by
      simpa [bracketRun, hc.1, hc.2] using hs
    simp only [isBalanced, beq_iff_eq]
    rw [bracketRun_append, htake]
    simp only [Option.some_bind]
    simpa [bracketRun, hnew.1, hnew.2] using hdroprun

/-- Deleting a non-bracket character preserves balance. -/
theorem isBalanced_deleteAt (s : List Char) (i : Nat) (c : Char)
    (hq : s[i]? = some c) (hc : c ≠ '[' ∧ c ≠ ']') (h : isBalanced s = true) :
    isBalanced (s.take i ++ s.drop (i + 1)) = true := by
  obtain ⟨hilen, hie⟩ := List.getElem?_eq_some_iff.mp hq
  have hs : bracketRun s 0 = some 0 := by
    have h' := h
    simp only [isBalanced, beq_iff_eq] at h'
    exact h'
  conv_lhs at hs => rw [← List.take_append_drop i s]
  rw [List.drop_eq_getElem_cons hilen, hie, bracketRun_append] at hs
  cases htake : bracketRun (s.take i) 0 with
  | none => rw [htake] at hs; simp at hs
  | some k =>
    rw [htake] at hs
    simp only [Option.some_bind] at hs
    have hdroprun : bracketRun (s.drop (i + 1)) k = some 0 := by
      simpa [bracketRun, hc.1, hc.2] using hs
    simp only [isBalanced, beq_iff_eq]
    rw [bracketRun_append, htake]
    simpa using hdroprun

theorem alphabetOK_append (a b : List Char) (ha : alphabetOK a = true)
    (hb : alphabetOK b = true) : alphabetOK (a ++ b) = true := by
  simp only [alphabetOK, List.all_append, Bool.and_eq_true]
  exact ⟨ha, hb⟩

theorem alphabetOK_take (s : List Char) (i : Nat) (h : alphabetOK s = true) :
    alphabetOK (s.take i) = true := by
  simp only [alphabetOK, List.all_eq_true] at h ⊢
  exact fun c hc => h c (List.mem_of_mem_take hc)

theorem alphabetOK_drop (s : List Char) (i : Nat) (h : alphabetOK s = true) :
    alphabetOK (s.drop i) = true := by
  simp only [alphabetOK, List.all_eq_true] at h ⊢
  exact fun c hc => h c (List.mem_of_mem_drop hc)

theorem alphabetOK_cons (c : Char) (s : List Char)
    (hc : alphabetChars.contains c = true) (h : alphabetOK s = true) :
    alphabetOK (c :: s) = true := by
  simp only [alphabetOK, List.all_cons, Bool.and_eq_true]
  exact ⟨hc, h⟩

theorem alphabetOK_replicate (k : Nat) (c : Char)
    (hc : alphabetChars.contains c = true) :
    alphabetOK (List.replicate k c) = true := by
  simp only [alphabetOK, List.all_eq_true]
  intro c' hc'
  rw [List.eq_of_mem_replicate hc']
  exact hc

/-!
## `get_random_branch` and `get_mutated_branch` (`plant.py`, lines 311-431)

Each random draw of the source becomes a field of an explicit draw record;
the predicate `validSub` / `validDraws` states that each field lies in the
support of the corresponding distribution (`random.choice`, `random.randint`,
the index sampled by `get_random_character_index`, and the operator index
returned by `random.choices(range(10), weights)`, which can only be an
operator of positive gated weight).
-/

/-- The draws made by `get_random_branch`: the sign chosen by
`random.choice(('+', '-'))`, the run length `randint(1, 4)`, whether the
75% `random.random() < 0.75` branch was taken, and the `F` insertion point
`randint(1, len(rotation))`. -/
structure SubBranchDraws where
  sign : Char
  n : Nat
  withF : Bool
  fpos : Nat

/-- Support of the draws of `get_random_branch`. -/
def validSub (d : SubBranchDraws) : Bool :=
  (d.sign == '+' || d.sign == '-') && (1 ≤ d.n && d.n ≤ 4) &&
    (!d.withF || (1 ≤ d.fpos && d.fpos ≤ d.n))

/-- `get_random_branch()`: a rotation run `random.choice(('+', '-')) *
random.randint(1, 4)`, with 75% probability an `'F'` spliced in at
`randint(1, len(rotation))`, wrapped as `'[' + rotation + 'X' + ']'`
(the f-string `f'[{rotation}X]'`). -/
def get_random_branch (d : SubBranchDraws) : List Char :=
  let rotation := List.replicate d.n d.sign
  let rotation :=
    if d.withF then rotation.take d.fpos ++ 'F' :: rotation.drop d.fpos
    else rotation
  '[' :: (rotation ++ ['X', ']'])

/-- The draws made by one call of `get_mutated_branch` after the operator
has been selected: the index `i` sampled by `get_random_character_index`
(operators 0-8) or `get_random_index` (operator 9), the duplication count
`randint(1, 2)` of operator 0, the sub-branch draws of operator 5, and the
character chosen by `random.choice(('F', 'f', 'f'))` in operator 9. -/
structure MutDraws where
  i : Nat
  dup : Nat
  sub : SubBranchDraws
  insChar : Char

/-- Does position `i` of `s` hold one of the characters `cs`?  This is
the membership test `string[i] in characters` of
`get_random_character_index`; for the operators below the searched
character set `get_characters_in_string(cs, branch)` admits exactly the
positions of `branch` holding a character of `cs`. -/
def charAtIn (s : List Char) (i : Nat) (cs : List Char) : Bool :=
  match s[i]? with
  | some c => cs.contains c
  | none => false

/-- Support of the draws of `get_mutated_branch` for operator `m` on
`branch`: the operator must have positive gated weight (`random.choices`
never returns a zero-weight index), and every index/character draw must lie
in the support of its distribution. -/
def validDraws (branch : List Char) (m : Nat) (d : MutDraws) : Bool :=
  decide (0 < (mutationWeights branch).getD m 0) &&
    match m with
    | 0 => charAtIn branch d.i ['+', '-'] && (1 ≤ d.dup && d.dup ≤ 2)
    | 1 => charAtIn branch d.i ['+', '-']
    | 2 => charAtIn branch d.i ['F']
    | 3 => charAtIn branch d.i ['f']
    | 4 => charAtIn branch d.i ['f']
    | 5 => charAtIn branch d.i ['F', 'f', '+', '-'] && validSub d.sub
    | 6 => charAtIn branch d.i ['X']
    | 7 => charAtIn branch d.i ['x']
    | 8 => charAtIn branch d.i ['[']
    | 9 => decide (d.i < branch.length) && (d.insChar == 'F' || d.insChar == 'f')
    | _ => false

/-- `get_mutated_branch(branch)` with the operator index `m` (drawn by
`random.choices(range(len(weights)), weights)`) and the remaining draws
passed explicitly.  Each arm mirrors the corresponding `case` of the
source `match mutation:`; `replace(string, target, replacement)` is
`string[:i] + replacement + string[i+1:]` at a sampled index of `target`.
In operator 8 the `none` result of the bracket scan corresponds to the
`IndexError` the source would raise on an unbalanced branch; it is

unreachable for balanced input. -/
def get_mutated_branch (branch : List Char) (m : Nat) (d : MutDraws) :
    List Char :=
  match m with
  | 0 => -- add rotation: branch[:i] + branch[i] * randint(1, 2) + branch[i:]
    branch.take d.i ++ List.replicate d.dup (branch.getD d.i ' ') ++ branch.drop d.i
  | 1 => -- remove rotation: branch[:i] + branch[i+1:]
    branch.take d.i ++ branch.drop (d.i + 1)
  | 2 => -- lowercase 'F': replace(branch, 'F', 'f')
    branch.take d.i ++ 'f' :: branch.drop (d.i + 1)
  | 3 => -- uppercase 'f': replace(branch, 'f', 'F')
    branch.take d.i ++ 'F' :: branch.drop (d.i + 1)
  | 4 => -- remove 'f': branch[:i] + branch[i+1:]
    branch.take d.i ++ branch.drop (d.i + 1)
  | 5 => -- add branch: branch[:i] + get_random_branch() + branch[i:]
    branch.take d.i ++ get_random_branch d.sub ++ branch.drop d.i
  | 6 => -- lowercase 'X': replace(branch, 'X', 'x')
    branch.take d.i ++ 'x' :: branch.drop (d.i + 1)
  | 7 => -- uppercase 'x': replace(branch, 'x', 'X')
    branch.take d.i ++ 'X' :: branch.drop (d.i + 1)
  | 8 => -- remove branch: i, j = get_bracket_indexes(branch); branch[:i] + branch[j+1:]
    match get_bracket_indexes branch d.i with
    | some (a, b) => branch.take a ++ branch.drop (b + 1)
    | none => branch
  | 9 => -- add 'f' or 'F': branch[:i] + random.choice(('F', 'f', 'f')) + branch[i:]
    branch.take d.i ++ d.insChar :: branch.drop d.i
  | _ => -- ignore
    branch

/-- The sub-branch generated by `get_random_branch` is a neutral bracket
segment: it leaves the open-bracket counter unchanged. -/
theorem get_random_branch_neutral (d : SubBranchDraws)
    (hd : validSub d = true) (n : Nat) :
    bracketRun (get_random_branch d) n = some n := by
  have hsign : d.sign = '+' ∨ d.sign = '-' := by
    simp only [validSub, Bool.and_eq_true, Bool.or_eq_true, beq_iff_eq] at hd
    exact hd.1.1
  have hrot : ∀ c ∈ (if d.withF then
      (List.replicate d.n d.sign).take d.fpos ++
        'F' :: (List.replicate d.n d.sign).drop d.fpos
      else List.replicate d.n d.sign), c ≠ '[' ∧ c ≠ ']' := by
    intro c hc
    have hsign' : d.sign ≠ '[' ∧ d.sign ≠ ']' := by
      rcases hsign with h | h <;> rw [h] <;> exact ⟨by decide, by decide⟩
    split at hc
    · rcases List.mem_append.mp hc with h | h
      · have := List.eq_of_mem_replicate (List.mem_of_mem_take h)
        subst this; exact hsign'
      · rcases List.mem_cons.mp h with h | h
        · subst h; exact ⟨by decide, by decide⟩
        · have := List.eq_of_mem_replicate (List.mem_of_mem_drop h)
          subst this; exact hsign'
    · have := List.eq_of_mem_replicate hc
      subst this; exact hsign'
  simp only [get_random_branch]
  have hopen : bracketRun ('[' ::
      ((if d.withF then
        (List.replicate d.n d.sign).take d.fpos ++
          'F' :: (List.replicate d.n d.sign).drop d.fpos
        else List.replicate d.n d.sign) ++ ['X', ']'])) n =
      bracketRun ((if d.withF then
        (List.replicate d.n d.sign).take d.fpos ++
          'F' :: (List.replicate d.n d.sign).drop d.fpos
        else List.replicate d.n d.sign) ++ ['X', ']']) (n + 1) := by
    simp [bracketRun]
  rw [hopen, bracketRun_append, bracketRun_no_brackets _ hrot]
  simp [bracketRun]

/-- The sub-branch generated by `get_random_branch` uses only alphabet
characters. -/
theorem get_random_branch_alphabet (d : SubBranchDraws)
    (hd : validSub d = true) :
    alphabetOK (get_random_branch d) = true := by
  have hsign : d.sign = '+' ∨ d.sign = '-' := by
    simp only [validSub, Bool.and_eq_true, Bool.or_eq_true, beq_iff_eq] at hd
    exact hd.1.1
  have hsignA : alphabetChars.contains d.sign = true := by
    rcases hsign with h | h <;> rw [h] <;> decide
  simp only [get_random_branch, alphabetOK, List.all_eq_true]
  intro c hc
  rcases List.mem_cons.mp hc with h | h
  · subst h; decide
  · rcases List.mem_append.mp h with h | h
    · split at h
      · rcases List.mem_append.mp h with h | h
        · rw [List.eq_of_mem_replicate (List.mem_of_mem_take h)]; exact hsignA
        · rcases List.mem_cons.mp h with h | h
          · subst h; decide
          · rw [List.eq_of_mem_replicate (List.mem_of_mem_drop h)]; exact hsignA
      · rw [List.eq_of_mem_replicate h]; exact hsignA
    · rcases List.mem_cons.mp h with h | h
      · subst h; decide
      · rcases List.mem_cons.mp h with h | h
        · subst h; decide
        · simp at h

/-- A successful `charAtIn` test exposes the character at the sampled
index. -/
theorem charAtIn_spec (s : List Char) (i : Nat) (cs : List Char)
    (h : charAtIn s i cs = true) :
    ∃ c, s[i]? = some c ∧ cs.contains c = true := by
  unfold charAtIn at h
  cases hq : s[i]? with
  | none => rw [hq] at h; simp at h
  | some c => rw [hq] at h; exact ⟨c, rfl, h⟩

/-- Claim C1: for every bracket-balanced, alphabet-closed branch string and
every operator the weighted selection can make (positive gated weight)
together with in-support draws, the output of `get_mutated_branch` is
bracket-balanced and alphabet-closed — including the case where operator 5
splices in the sub-branch produced by `get_random_branch`. -/
theorem get_mutated_branch_valid (branch : List Char) (m : Nat) (d : MutDraws)
    (hbal : isBalanced branch = true) (halpha : alphabetOK branch = true)
    (hd : validDraws branch m d = true) :
    isBalanced (get_mutated_branch branch m d) = true ∧
      alphabetOK (get_mutated_branch branch m d) = true := by
  obtain _ | _ | _ | _ | _ | _ | _ | _ | _ | _ | n := m
  · -- operator 0: add rotation
    simp only [validDraws, Bool.and_eq_true] at hd
    obtain ⟨-, hci, -⟩ := hd
    obtain ⟨c, hq, hcs⟩ := charAtIn_spec _ _ _ hci
    have hc : c = '+' ∨ c = '-' := by simpa using hcs
    have hnb : c ≠ '[' ∧ c ≠ ']' := by
      rcases hc with h | h <;> subst h <;> exact ⟨by decide, by decide⟩
    have hg : branch.getD d.i ' ' = c := by
      rw [List.getD_eq_getElem?_getD, hq]; rfl
    have hA : alphabetChars.contains c = true := by
      rcases hc with h | h <;> subst h <;> decide
    constructor
    · simp only [get_mutated_branch, hg]
      exact isBalanced_insert branch _ d.i
        (fun n => bracketRun_no_brackets _
          (fun c' hc' => by rw [List.eq_of_mem_replicate hc']; exact hnb) n)
        hbal
    · simp only [get_mutated_branch, hg]
      exact alphabetOK_append _ _
        (alphabetOK_append _ _ (alphabetOK_take branch d.i halpha)
          (alphabetOK_replicate d.dup c hA))
        (alphabetOK_drop branch d.i halpha)
  · -- operator 1: remove rotation
    simp only [validDraws, Bool.and_eq_true] at hd
    obtain ⟨-, hci⟩ := hd
    obtain ⟨c, hq, hcs⟩ := charAtIn_spec _ _ _ hci
    have hc : c = '+' ∨ c = '-' := by simpa using hcs
    have hnb : c ≠ '[' ∧ c ≠ ']' := by
      rcases hc with h | h <;> subst h <;> exact ⟨by decide, by decide⟩
    exact ⟨isBalanced_deleteAt branch d.i c hq hnb hbal,
      alphabetOK_append _ _ (alphabetOK_take branch d.i halpha)
        (alphabetOK_drop branch (d.i + 1) halpha)⟩
  · -- operator 2: lowercase 'F'
    simp only [validDraws, Bool.and_eq_true] at hd
    obtain ⟨-, hci⟩ := hd
    obtain ⟨c, hq, hcs⟩ := charAtIn_spec _ _ _ hci
    have hc : c = 'F' := by simpa using hcs
    subst hc
    exact ⟨isBalanced_replace branch d.i 'F' 'f' hq ⟨by decide, by decide⟩
        ⟨by decide, by decide⟩ hbal,
      alphabetOK_append _ _ (alphabetOK_take branch d.i halpha)
        (alphabetOK_cons 'f' _ (by decide)
          (alphabetOK_drop branch (d.i + 1) halpha))⟩
  · -- operator 3: uppercase 'f'
    simp only [validDraws, Bool.and_eq_true] at hd
    obtain ⟨-, hci⟩ := hd
    obtain ⟨c, hq, hcs⟩ := charAtIn_spec _ _ _ hci
    have hc : c = 'f' := by simpa using hcs
    subst hc
    exact ⟨isBalanced_replace branch d.i 'f' 'F' hq ⟨by decide, by decide⟩
        ⟨by decide, by decide⟩ hbal,
      alphabetOK_append _ _ (alphabetOK_take branch d.i halpha)
        (alphabetOK_cons 'F' _ (by decide)
          (alphabetOK_drop branch (d.i + 1) halpha))⟩
  · -- operator 4: remove 'f'
    simp only [validDraws, Bool.and_eq_true] at hd
    obtain ⟨-, hci⟩ := hd
    obtain ⟨c, hq, hcs⟩ := charAtIn_spec _ _ _ hci
    have hc : c = 'f' := by simpa using hcs
    subst hc
    exact ⟨isBalanced_deleteAt branch d.i 'f' hq ⟨by decide, by decide⟩ hbal,
      alphabetOK_append _ _ (alphabetOK_take branch d.i halpha)
        (alphabetOK_drop branch (d.i + 1) halpha)⟩
  · -- operator 5: add branch
    simp only [validDraws, Bool.and_eq_true] at hd
    obtain ⟨-, -, hsub⟩ := hd
    exact ⟨isBalanced_insert branch _ d.i
        (get_random_branch_neutral d.sub hsub) hbal,
      by
        show alphabetOK (branch.take d.i ++ get_random_branch d.sub ++
          branch.drop d.i) = true
        exact alphabetOK_append _ _
          (alphabetOK_append _ _ (alphabetOK_take branch d.i halpha)
            (get_random_branch_alphabet d.sub hsub))
          (alphabetOK_drop branch d.i halpha)⟩
  · -- operator 6: lowercase 'X'
    simp only [validDraws, Bool.and_eq_true] at hd
    obtain ⟨-, hci⟩ := hd
    obtain ⟨c, hq, hcs⟩ := charAtIn_spec _ _ _ hci
    have hc : c = 'X' := by simpa using hcs
    subst hc
    exact ⟨isBalanced_replace branch d.i 'X' 'x' hq ⟨by decide, by decide⟩
        ⟨by decide, by decide⟩ hbal,
      alphabetOK_append _ _ (alphabetOK_take branch d.i halpha)
        (alphabetOK_cons 'x' _ (by decide)
          (alphabetOK_drop branch (d.i + 1) halpha))⟩
  · -- operator 7: uppercase 'x'
    simp only [validDraws, Bool.and_eq_true] at hd
    obtain ⟨-, hci⟩ := hd
    obtain ⟨c, hq, hcs⟩ := charAtIn_spec _ _ _ hci
    have hc : c = 'x' := by simpa using hcs
    subst hc
    exact ⟨isBalanced_replace branch d.i 'x' 'X' hq ⟨by decide, by decide⟩
        ⟨by decide, by decide⟩ hbal,
      alphabetOK_append _ _ (alphabetOK_take branch d.i halpha)
        (alphabetOK_cons 'X' _ (by decide)
          (alphabetOK_drop branch (d.i + 1) halpha))⟩
  · -- operator 8: remove branch
    simp only [validDraws, Bool.and_eq_true] at hd
    obtain ⟨-, hci⟩ := hd
    obtain ⟨c, hq, hcs⟩ := charAtIn_spec _ _ _ hci
    have hc : c = '[' := by simpa using hcs
    subst hc
    obtain ⟨i, j, hscan, hi1, hij, hi2, hj2, hmid⟩ :=
      bracketScan_spec branch (branch.length + 1) d.i d.i hq (le_refl d.i)
        (by intro w hw1 hw2; omega)
        (exists_close_of_balanced branch d.i hbal hq) (by omega)
    have hres : get_mutated_branch branch 8 d =
        branch.take i ++ branch.drop (j + 1) := by
      simp only [get_mutated_branch, get_bracket_indexes, hscan]
    rw [hres]
    exact ⟨isBalanced_delete_span branch i j hij hi2 hj2 hmid hbal,
      alphabetOK_append _ _ (alphabetOK_take branch i halpha)
        (alphabetOK_drop branch (j + 1) halpha)⟩
  · -- operator 9: add 'f' or 'F'
    simp only [validDraws, Bool.and_eq_true] at hd
    obtain ⟨-, -, hins⟩ := hd
    have hc : d.insChar = 'F' ∨ d.insChar = 'f' := by
      simpa using hins
    have hnb : d.insChar ≠ '[' ∧ d.insChar ≠ ']' := by
      rcases hc with h | h <;> rw [h] <;> exact ⟨by decide, by decide⟩
    have hA : alphabetChars.contains d.insChar = true := by
      rcases hc with h | h <;> rw [h] <;> decide
    refine ⟨?_, ?_⟩
    · have : ∀ n, bracketRun [d.insChar] n = some n := by
        intro n
        exact bracketRun_no_brackets _
          (fun c' hc' => by
            rcases List.mem_cons.mp hc' with h | h
            · subst h; exact hnb
            · simp at h) n
      have h := isBalanced_insert branch [d.insChar] d.i this hbal
      simpa [get_mutated_branch] using h
    · simp only [get_mutated_branch]
      exact alphabetOK_append _ _ (alphabetOK_take branch d.i halpha)
        (alphabetOK_cons _ _ hA (alphabetOK_drop branch d.i halpha))
  · -- operators ≥ 10 cannot be selected
    exfalso
    simp [validDraws] at hd

/-- Claim C1, witness: operator 0 duplicating the `+` of the balanced
branch `"+"` yields a balanced, alphabet-closed string. -/
theorem get_mutated_branch_valid_witness :
    isBalanced (get_mutated_branch ['+'] 0
        ⟨0, 1, ⟨'+', 1, false, 1⟩, 'F'⟩) = true ∧
      alphabetOK (get_mutated_branch ['+'] 0
        ⟨0, 1, ⟨'+', 1, false, 1⟩, 'F'⟩) = true :=
  get_mutated_branch_valid ['+'] 0 ⟨0, 1, ⟨'+', 1, false, 1⟩, 'F'⟩
    (by decide) (by decide) (by decide)

/-!
## `LSystem.step` (`l_system.py`, lines 28-44)
-/

/-- `random.choices(population, weights)[0]`: only candidates of positive
weight can be drawn; the draw is modelled by an oracle value `n` indexing
into the positive-weight support.  (An all-zero weight list makes the
source raise `ValueError`; that case is modelled by the empty replacement
and never arises under the preconditions used below.) -/
def choicesPick (population : List (List Char)) (weights : List ℚ)
    (n : Nat) : List Char :=
  let support := (population.zip weights).filterMap
    (fun pw => if 0 < pw.2 then some pw.1 else none)
  (support[n % support.length]?).getD []

/-- The body of one `step` iteration: builds `next_state` by walking the
old state left to right, substituting the fixed replacement, a weighted
draw (consuming one oracle value, counted by `k`), or the symbol itself
when the symbol has no rule.  The old state is read in full; the new state
is assembled separately, exactly as the source builds `next_state` before
assigning `self.state`. -/
def rewriteState (rules : Rules) (σ : Nat → Nat) :
    List Char → Nat → List Char × Nat
  | [], k => ([], k)
  | c :: rest, k =>
    match lookupRule rules c with
    | some (RuleBody.fixed r) =>
      let t := rewriteState rules σ rest k
      (r ++ t.1, t.2)
    | some (RuleBody.weighted pop w) =>
      let t := rewriteState rules σ rest (k + 1)
      (choicesPick pop w (σ k) ++ t.1, t.2)
    | none =>
      let t := rewriteState rules σ rest k
      (c :: t.1, t.2)

/-- `LSystem.step(n)`: `for _ in range(n): self.state = next_state`.  The
mutable `self.state` and the position of the shared random stream become a
state/oracle-counter pair threaded through the iterations. -/
def stepLS (rules : Rules) (σ : Nat → Nat) :
    Nat → List Char × Nat → List Char × Nat
  | 0, sk => sk
  | n + 1, sk => stepLS rules σ n (rewriteState rules σ sk.1 sk.2)

/-- A rule table whose rule bodies are all fixed strings. -/
def allFixed (rules : Rules) : Bool :=
  rules.all (fun p =>
    match p.2 with
    | RuleBody.fixed _ => true
    | RuleBody.weighted _ _ => false)

/-- In an all-fixed rule table every lookup is a fixed rule or absent. -/
theorem allFixed_lookup (rules : Rules) (c : Char)
    (h : allFixed rules = true) :
    (∃ r, lookupRule rules c = some (RuleBody.fixed r)) ∨
      lookupRule rules c = none := by
  unfold lookupRule
  cases hf : rules.find? (fun p => p.1 == c) with
  | none => right; rfl
  | some p =>
    left
    have hmem := List.mem_of_find?_eq_some hf
    have hp := (List.all_eq_true.mp h) p hmem
    cases hbody : p.2 with
    | fixed r => exact ⟨r, by simp [hbody]⟩
    | weighted pop w => rw [hbody] at hp; simp at hp

/-- Claim C3: for an all-fixed rule table, one rewrite pass replaces every
symbol simultaneously from the old state — the new state is the in-order
concatenation of each symbol's replacement string (or the symbol itself
when it has no rule) — and in particular rule `A→AB` on state `"A"` yields
exactly `"AB"`. -/
theorem step_rewrites_simultaneously (rules : Rules) (σ : Nat → Nat)
    (s : List Char) (k : Nat) (h : allFixed rules = true) :
    rewriteState rules σ s k =
      (s.flatMap (fun c =>
        match lookupRule rules c with
        | some (RuleBody.fixed r) => r
        | _ => [c]), k) ∧
      rewriteState [('A', RuleBody.fixed ['A', 'B'])] σ ['A'] k =
        (['A', 'B'], k) := by
  constructor
  · induction s generalizing k with
    | nil => simp [rewriteState]
    | cons c rest ih =>
      rcases allFixed_lookup rules c h with ⟨r, hr⟩ | hr
      · simp [rewriteState, hr, ih]
      · simp [rewriteState, hr, ih]
  · simp [rewriteState, lookupRule]

/-- Claim C3, witness: the `A→AB` example at a concrete oracle and
counter. -/
theorem step_rewrites_simultaneously_witness :
    rewriteState [('A', RuleBody.fixed ['A', 'B'])] (fun _ => 0) ['A'] 0 =
      ((['A'] : List Char).flatMap (fun c =>
        match lookupRule [('A', RuleBody.fixed ['A', 'B'])] c with
        | some (RuleBody.fixed r) => r
        | _ => [c]), 0) ∧
      rewriteState [('A', RuleBody.fixed ['A', 'B'])] (fun _ => 0) ['A'] 0 =
        (['A', 'B'], 0) :=
  step_rewrites_simultaneously [('A', RuleBody.fixed ['A', 'B'])]
    (fun _ => 0) ['A'] 0 (by decide)

/-- Claim C9: `step(0)` leaves the state unchanged for every rule table,
and for an all-fixed rule table running `step(a)` then `step(b)` produces
the same state as `step(a+b)`. -/
theorem step_zero_and_additive (rules : Rules) (σ : Nat → Nat)
    (a b : Nat) (sk : List Char × Nat) :
    stepLS rules σ 0 sk = sk ∧
      (allFixed rules = true →
        stepLS rules σ b (stepLS rules σ a sk) = stepLS rules σ (a + b) sk) := by
  constructor
  · rfl
  · intro _
    induction a generalizing sk with
    | zero => simp [stepLS]
    | succ a ih =>
      have hsucc : a + 1 + b = (a + b) + 1 := by omega
      rw [hsucc]
      show stepLS rules σ b (stepLS rules σ a (rewriteState rules σ sk.1 sk.2)) =
        stepLS rules σ (a + b) (rewriteState rules σ sk.1 sk.2)
      exact ih _

/-- Claim C9, witness: concrete instantiation on the `A→AB` table with
`a = 1`, `b = 2`. -/
theorem step_zero_and_additive_witness :
    stepLS [('A', RuleBody.fixed ['A', 'B'])] (fun _ => 0) 0 (['A'], 0) =
        (['A'], 0) ∧
      (allFixed [('A', RuleBody.fixed ['A', 'B'])] = true →
        stepLS [('A', RuleBody.fixed ['A', 'B'])] (fun _ => 0) 2
            (stepLS [('A', RuleBody.fixed ['A', 'B'])] (fun _ => 0) 1 (['A'], 0)) =
          stepLS [('A', RuleBody.fixed ['A', 'B'])] (fun _ => 0) (1 + 2) (['A'], 0)) :=
  step_zero_and_additive [('A', RuleBody.fixed ['A', 'B'])] (fun _ => 0) 1 2 (['A'], 0)

/-!
## Turtle interpretation (`Plant.update_draw_settings`, `plant.py` 190-232,
and `angle_vector`, lines 305-308)

Floats become real numbers (the idealization under which `cos(90°) = 0`
exactly).  The color generators are external collaborators returning only
colors; they do not affect geometry and are omitted from the embedded
render commands.
-/

/-- The numeric draw settings of `DrawSettings` (`plant.py` lines 19-27);
the two color-generator closures are external and omitted. -/
structure DrawSettings where
  angle : ℝ
  trunk_segment_length : ℝ
  trunk_width : ℝ
  leaf_radius : ℝ
  leaf_type : Nat

/-- `np.radians`. -/
noncomputable def radians (θ : ℝ) : ℝ := θ * Real.pi / 180

/-- `angle_vector(angle) = (cos(radians), -sin(radians))` (the `lru_cache`
is an optimization with no semantic content). -/
noncomputable def angle_vector (θ : ℝ) : ℝ × ℝ :=
  (Real.cos (radians θ), -Real.sin (radians θ))

/-- A render command: `partial(draw_trunk, start, end, width, color)` or
`partial(draw_leaf, leaf_type, center, angle, rad, color)`, colors
omitted.  `int(draw_settings.trunk_width)` truncates toward zero; for the
positive widths the program uses it coincides with the floor. -/
inductive RenderCmd where
  | trunk (start finish : ℝ × ℝ) (width : ℤ)
  | leaf (leaf_type : Nat) (center : ℝ × ℝ) (angle : ℝ) (rad : ℝ)

/-- The turtle state of `update_draw_settings`: `pos`, `angle`, the
`LifoQueue` (push/pop at the head), the forward-run counter `f`, and the
accumulated `render_funcs` (trunks are inserted at index 0, leaves
appended at the end). -/
structure Turtle where
  pos : ℝ × ℝ
  angle : ℝ
  stack : List ((ℝ × ℝ) × ℝ)
  run : Nat
  funcs : List RenderCmd

/-- The lookahead test `self.state[i + 1] in 'Ff'`; `none` stands for the
sentinel space appended before the loop, which is not in `'Ff'`. -/
def isFwd : Option Char → Bool
  | some c => c == 'F' || c == 'f'
  | none => false

/-- `new_pos = tuple(pos + angle_vector(angle) * (f * trunk_segment_length))`. -/
noncomputable def advancePos (ds : DrawSettings) (t : Turtle) (f : Nat) : ℝ × ℝ :=
  (t.pos.1 + (angle_vector t.angle).1 * (f * ds.trunk_segment_length),
   t.pos.2 + (angle_vector t.angle).2 * (f * ds.trunk_segment_length))

/-- The body of the `match self.state[i]:` statement for one symbol, with
`nextFwd` the lookahead test on the following symbol.  A `]` on an empty
stack makes the source's `queue.get()` block forever; that case (made
total here as a no-op) is unreachable for bracket-balanced states. -/
noncomputable def drawStep (ds : DrawSettings) (c : Char) (nextFwd : Bool)
    (t : Turtle) : Turtle :=
  if c = 'F' ∨ c = 'f' then
    let f := t.run + 1
    if nextFwd then { t with run := f }
    else
      let newPos := advancePos ds t f
      { t with pos := newPos, run := 0,
               funcs := RenderCmd.trunk t.pos newPos ⌊ds.trunk_width⌋ :: t.funcs }
  else if c = 'X' ∨ c = 'x' then
    { t with funcs := t.funcs ++
        [RenderCmd.leaf ds.leaf_type t.pos t.angle ds.leaf_radius] }
  else if c = '+' then { t with angle := t.angle + ds.angle }
  else if c = '-' then { t with angle := t.angle - ds.angle }
  else if c = '[' then { t with stack := (t.pos, t.angle) :: t.stack }
  else if c = ']' then
    match t.stack with
    | pa :: rest => { t with pos := pa.1, angle := pa.2, stack := rest }
    | [] => t
  else t

/-- The `for i in range(len(self.state) - 1):` loop over the state with the
sentinel space appended: each symbol is processed with lookahead at the
next one. -/
noncomputable def drawScan (ds : DrawSettings) : List Char → Turtle → Turtle
  | [], t => t
  | c :: rest, t => drawScan ds rest (drawStep ds c (isFwd rest.head?) t)

/-- `Plant.update_draw_settings`: run the turtle from the origin with
heading 90° and an empty stack, and collect `self.render_funcs`.  (The
temporary sentinel append `self.state += ' '` and the final strip
`self.state = self.state[:-1]` leave the state unchanged and are absorbed
into the lookahead.) -/
noncomputable def update_draw_settings (ds : DrawSettings)
    (state : List Char) : List RenderCmd :=
  (drawScan ds state ⟨(0, 0), 90, [], 0, []⟩).funcs

/-- Interpretation composes over a split whose right part does not start
with a forward symbol (the lookahead at the boundary then agrees with the
end-of-string sentinel). -/
theorem drawScan_append (ds : DrawSettings) (xs ys : List Char) (t : Turtle)
    (hys : isFwd ys.head? = false) :
    drawScan ds (xs ++ ys) t = drawScan ds ys (drawScan ds xs t) := by
  induction xs generalizing t with
  | nil => rfl
  | cons c rest ih =>
    have hhead : isFwd ((rest ++ ys).head?) = isFwd rest.head? := by
      cases rest with
      | nil => rw [List.nil_append, hys]; rfl
      | cons c2 rest2 => rfl
    show drawScan ds (rest ++ ys) (drawStep ds c (isFwd ((rest ++ ys).head?)) t) =
      drawScan ds ys (drawScan ds rest (drawStep ds c (isFwd rest.head?) t))
    rw [hhead, ih]

/-- A nonempty all-forward run followed by a non-forward boundary advances
the position once by (run counter + run length) segment lengths and emits
exactly one trunk command. -/
theorem drawScan_fwd_run (ds : DrawSettings) (fwd rest : List Char)
    (hfwd : ∀ c ∈ fwd, c = 'F' ∨ c = 'f') (hne : fwd ≠ [])
    (hrest : isFwd rest.head? = false) :
    ∀ (p : ℝ × ℝ) (a : ℝ) (st : List ((ℝ × ℝ) × ℝ)) (r : Nat)
      (fs : List RenderCmd),
      drawScan ds (fwd ++ rest) ⟨p, a, st, r, fs⟩ =
        drawScan ds rest
          ⟨advancePos ds ⟨p, a, st, r, fs⟩ (r + fwd.length), a, st, 0,
           RenderCmd.trunk p (advancePos ds ⟨p, a, st, r, fs⟩ (r + fwd.length))
             ⌊ds.trunk_width⌋ :: fs⟩ := by
  induction fwd with
  | nil => exact absurd rfl hne
  | cons c fwd' ih =>
    intro p a st r fs
    have hc : c = 'F' ∨ c = 'f' := hfwd c (List.mem_cons_self _ _)
    cases fwd' with
    | nil =>
      show drawScan ds rest (drawStep ds c (isFwd rest.head?)
          ⟨p, a, st, r, fs⟩) = _
      rw [hrest]
      congr 1
      simp [drawStep, hc, advancePos]
    | cons c2 fwd'' =>
      have hc2 : c2 = 'F' ∨ c2 = 'f' :=
        hfwd c2 (List.mem_cons_of_mem _ (List.mem_cons_self _ _))
      have hlook : isFwd (((c2 :: fwd'') ++ rest).head?) = true := by
        rcases hc2 with h | h <;> simp [isFwd, h]
      have h1 : drawScan ds ((c :: c2 :: fwd'') ++ rest) ⟨p, a, st, r, fs⟩ =
          drawScan ds ((c2 :: fwd'') ++ rest) ⟨p, a, st, r + 1, fs⟩ := by
        show drawScan ds ((c2 :: fwd'') ++ rest)
            (drawStep ds c (isFwd (((c2 :: fwd'') ++ rest).head?))
              ⟨p, a, st, r, fs⟩) = _
        rw [hlook]
        congr 1
        simp [drawStep, hc]
      rw [h1, ih (fun c' hc' => hfwd c' (List.mem_cons_of_mem _ hc'))
        (by simp) p a st (r + 1) fs]
      have harith : r + 1 + (c2 :: fwd'').length = r + (c :: c2 :: fwd'').length := by
        simp only [List.length_cons]; omega
      congr 1
      rw [harith]
      simp [advancePos]

/-- Claim C4: scanning left to right, a maximal run of `k` consecutive
forward symbols (`F`/`f`) — entered with run counter 0 and followed by a
non-forward symbol or the end sentinel — produces exactly one trunk
command, whose start is the position before the run and whose end advances
it by `k` segment lengths along the current heading; in particular
interpreting `"F"` yields exactly one trunk command from `(0,0)` to
`(0,-L)` for heading 90°. -/
theorem forward_run_single_trunk :
    (∀ (ds : DrawSettings) (k : Nat) (fwdRun rest : List Char) (p : ℝ × ℝ)
        (a : ℝ) (st : List ((ℝ × ℝ) × ℝ)) (fs : List RenderCmd),
      0 < k → fwdRun.length = k → (∀ c ∈ fwdRun, c = 'F' ∨ c = 'f') →
      isFwd rest.head? = false →
      drawScan ds (fwdRun ++ rest) ⟨p, a, st, 0, fs⟩ =
        drawScan ds rest
          ⟨(p.1 + (angle_vector a).1 * (k * ds.trunk_segment_length),
            p.2 + (angle_vector a).2 * (k * ds.trunk_segment_length)),
           a, st, 0,
           RenderCmd.trunk p
             (p.1 + (angle_vector a).1 * (k * ds.trunk_segment_length),
              p.2 + (angle_vector a).2 * (k * ds.trunk_segment_length))
             ⌊ds.trunk_width⌋ :: fs⟩) ∧
    (∀ ds : DrawSettings, update_draw_settings ds ['F'] =
      [RenderCmd.trunk (0, 0) (0, -ds.trunk_segment_length)
        ⌊ds.trunk_width⌋]) := by
  constructor
  · intro ds k fwdRun rest p a st fs hk hlen hfwd hrest
    subst hlen
    have hne : fwdRun ≠ [] := by
      intro h
      rw [h] at hk
      simp at hk
    rw [drawScan_fwd_run ds fwdRun rest hfwd hne hrest p a st 0 fs]
    congr 1
    simp [advancePos]
  · intro ds
    have hrad : radians 90 = Real.pi / 2 := by unfold radians; ring
    simp [update_draw_settings, drawScan, drawStep, isFwd, advancePos,
      angle_vector, hrad]

/-- Claim C4, witness: the run `"F"` followed by `"+"` emits one trunk
command (settings: angle 15, segment length 1, width 2). -/
theorem forward_run_single_trunk_witness :
    (drawScan ⟨15, 1, 2, 3, 0⟩ (['F'] ++ ['+']) ⟨((0:ℝ), (0:ℝ)), 90, [], 0, []⟩ =
      drawScan ⟨15, 1, 2, 3, 0⟩ ['+']
        ⟨(((0:ℝ), (0:ℝ)).1 + (angle_vector 90).1 * ((1 : Nat) * (1:ℝ)),
          ((0:ℝ), (0:ℝ)).2 + (angle_vector 90).2 * ((1 : Nat) * (1:ℝ))),
         90, [], 0,
         RenderCmd.trunk ((0:ℝ), (0:ℝ))
           (((0:ℝ), (0:ℝ)).1 + (angle_vector 90).1 * ((1 : Nat) * (1:ℝ)),
            ((0:ℝ), (0:ℝ)).2 + (angle_vector 90).2 * ((1 : Nat) * (1:ℝ)))
           ⌊(2:ℝ)⌋ :: []⟩) ∧
    update_draw_settings ⟨15, 1, 2, 3, 0⟩ ['F'] =
      [RenderCmd.trunk (0, 0) (0, -(1:ℝ)) ⌊(2:ℝ)⌋] :=
  ⟨forward_run_single_trunk.1 ⟨15, 1, 2, 3, 0⟩ 1 ['F'] ['+']
      ((0:ℝ), (0:ℝ)) 90 [] [] (by decide) rfl
      (by intro c hc; simp at hc; subst hc; left; rfl) (by decide),
    forward_run_single_trunk.2 ⟨15, 1, 2, 3, 0⟩⟩

/-- Effect of one interpretation step on the stack: `[` pushes the current
(position, angle), `]` pops (with the empty-stack no-op coinciding with
`List.tail`), every other symbol leaves the stack unchanged. -/
theorem drawStep_stack (ds : DrawSettings) (c : Char) (look : Bool)
    (t : Turtle) :
    (drawStep ds c look t).stack =
      if c = '[' then (t.pos, t.angle) :: t.stack
      else if c = ']' then t.stack.tail
      else t.stack := by
  unfold drawStep
  by_cases h1 : c = 'F' ∨ c = 'f'
  · have hb : c ≠ '[' ∧ c ≠ ']' := by
      rcases h1 with h | h <;> subst h <;> exact ⟨by decide, by decide⟩
    rw [if_pos h1, if_neg hb.1, if_neg hb.2]
    cases look <;> simp
  · rw [if_neg h1]
    by_cases h2 : c = 'X' ∨ c = 'x'
    · have hb : c ≠ '[' ∧ c ≠ ']' := by
        rcases h2 with h | h <;> subst h <;> exact ⟨by decide, by decide⟩
      rw [if_pos h2, if_neg hb.1, if_neg hb.2]
    · rw [if_neg h2]
      by_cases h3 : c = '+'
      · subst h3
        rw [if_pos rfl]
        rw [if_neg (by decide), if_neg (by decide)]
      · rw [if_neg h3]
        by_cases h4 : c = '-'
        · subst h4
          rw [if_pos rfl]
          rw [if_neg (by decide), if_neg (by decide)]
        · rw [if_neg h4]
          by_cases h5 : c = '['
          · subst h5
            rw [if_pos rfl, if_pos rfl]
          · rw [if_neg h5, if_neg h5]
            by_cases h6 : c = ']'
            · subst h6
              rw [if_pos rfl, if_pos rfl]
              cases hstk : t.stack with
              | nil => simp [hstk]
              | cons e s => simp
            · rw [if_neg h6, if_neg h6]

/-- A segment whose bracket scan runs from counter `n` to `n'` transforms a
stack of `n` scratch entries above a preserved base into `n'` scratch
entries above the same base; in particular a balanced segment restores the
stack exactly. -/
theorem drawScan_stack (ds : DrawSettings) (m : List Char) :
    ∀ (n n' : Nat) (t : Turtle) (hi lo : List ((ℝ × ℝ) × ℝ)),
      bracketRun m n = some n' → t.stack = hi ++ lo → hi.length = n →
      ∃ hi', (drawScan ds m t).stack = hi' ++ lo ∧ hi'.length = n' := by
  induction m with
  | nil =>
    intro n n' t hi lo hrun hst hlen
    have : n = n' := by
      simpa [bracketRun] using hrun
    exact ⟨hi, by simpa [drawScan] using hst, by omega⟩
  | cons c rest ih =>
    intro n n' t hi lo hrun hst hlen
    show ∃ hi', (drawScan ds rest (drawStep ds c (isFwd rest.head?) t)).stack =
      hi' ++ lo ∧ hi'.length = n'
    by_cases h1 : c = '['
    · subst h1
      have hrun' : bracketRun rest (n + 1) = some n' := by
        simpa [bracketRun] using hrun
      have hstep : (drawStep ds '[' (isFwd rest.head?) t).stack =
          (t.pos, t.angle) :: t.stack := by
        rw [drawStep_stack]; simp
      refine ih (n + 1) n' _ ((t.pos, t.angle) :: hi) lo hrun' ?_ ?_
      · rw [hstep, hst]; rfl
      · simp [hlen]
    · by_cases h2 : c = ']'
      · subst h2
        cases n with
        | zero => simp [bracketRun] at hrun
        | succ k =>
          have hrun' : bracketRun rest k = some n' := by
            simpa [bracketRun] using hrun
          cases hi with
          | nil => simp at hlen
          | cons e hi' =>
            have hstep : (drawStep ds ']' (isFwd rest.head?) t).stack =
                hi' ++ lo := by
              rw [drawStep_stack]
              simp only [if_neg (by decide : ¬ (']' : Char) = '['), if_pos rfl]
              rw [hst]
              rfl
            exact ih k n' _ hi' lo hrun' hstep (by simpa using hlen)
      · have hrun' : bracketRun rest n = some n' := by
          simpa [bracketRun, h1, h2] using hrun
        have hstep : (drawStep ds c (isFwd rest.head?) t).stack = t.stack := by
          rw [drawStep_stack, if_neg h1, if_neg h2]
        exact ih n n' _ hi lo hrun' (by rw [hstep]; exact hst) hlen

/-- Processing `'[' middle ']'` with balanced `middle` restores position,
heading and stack to their values at the `[`, whatever `middle` did. -/
theorem pop_restores_general (ds : DrawSettings) (middle rest : List Char)
    (t : Turtle) (hbal : isBalanced middle = true) :
    drawScan ds ('[' :: middle ++ ']' :: rest) t =
      drawScan ds rest
        { drawScan ds middle { t with stack := (t.pos, t.angle) :: t.stack } with
          pos := t.pos, angle := t.angle, stack := t.stack } := by
  have hrun : bracketRun middle 0 = some 0 := by
    have h := hbal
    simp only [isBalanced, beq_iff_eq] at h
    exact h
  have hstep1 : drawStep ds '[' (isFwd (middle ++ ']' :: rest).head?) t =
      { t with stack := (t.pos, t.angle) :: t.stack } := by
    unfold drawStep
    rw [if_neg (by decide), if_neg (by decide), if_neg (by decide),
      if_neg (by decide), if_pos rfl]
  show drawScan ds (middle ++ ']' :: rest)
      (drawStep ds '[' (isFwd (middle ++ ']' :: rest).head?) t) = _
  rw [hstep1, drawScan_append ds middle (']' :: rest) _ (by rfl)]
  obtain ⟨hi', hstack, hlen⟩ := drawScan_stack ds middle 0 0
    { t with stack := (t.pos, t.angle) :: t.stack } []
    ((t.pos, t.angle) :: t.stack) hrun rfl rfl
  have hi'nil : hi' = [] := List.length_eq_zero.mp hlen
  rw [hi'nil, List.nil_append] at hstack
  show drawScan ds rest (drawStep ds ']' (isFwd rest.head?)
    (drawScan ds middle { t with stack := (t.pos, t.angle) :: t.stack })) = _
  congr 1
  unfold drawStep
  rw [if_neg (by decide), if_neg (by decide), if_neg (by decide),
    if_neg (by decide), if_neg (by decide), if_pos rfl, hstack]

/-- Claim C5: every `]` restores (position, heading) to exactly the pair
saved by its matching `[` (last-in-first-out); on `"F[+F]F"` the trunk
segment emitted after the `]` starts from the pre-bracket position
`(0,-1)` (segment length 1), not from the branch tip, which differs from
it. -/
theorem bracket_pop_restores :
    (∀ (ds : DrawSettings) (middle rest : List Char) (t : Turtle),
      isBalanced middle = true →
      drawScan ds ('[' :: middle ++ ']' :: rest) t =
        drawScan ds rest
          { drawScan ds middle
              { t with stack := (t.pos, t.angle) :: t.stack } with
            pos := t.pos, angle := t.angle, stack := t.stack }) ∧
    (update_draw_settings ⟨15, 1, 2, 3, 0⟩ ['F', '[', '+', 'F', ']', 'F'] =
        [RenderCmd.trunk (0, -1) (0, -2) ⌊(2:ℝ)⌋,
         RenderCmd.trunk (0, -1)
           (Real.cos (radians 105), -1 - Real.sin (radians 105)) ⌊(2:ℝ)⌋,
         RenderCmd.trunk (0, 0) (0, -1) ⌊(2:ℝ)⌋] ∧
      (Real.cos (radians 105), -1 - Real.sin (radians 105)) ≠ ((0:ℝ), -1)) := by
  refine ⟨fun ds middle rest t h => pop_restores_general ds middle rest t h,
    ?_, ?_⟩
  · have hrad : radians 90 = Real.pi / 2 := by unfold radians; ring
    have h105 : (90:ℝ) + 15 = 105 := by norm_num
    simp [update_draw_settings, drawScan, drawStep, isFwd, advancePos,
      angle_vector, hrad, h105, sub_eq_add_neg]
    norm_num
  · intro h
    rw [Prod.mk.injEq] at h
    have hcos : Real.cos (radians 105) < 0 := by
      apply Real.cos_neg_of_pi_div_two_lt_of_lt
      · unfold radians
        nlinarith [Real.pi_pos]
      · unfold radians
        nlinarith [Real.pi_pos]
    rw [h.1] at hcos
    exact absurd hcos (by norm_num)

/-- Claim C5, witness: the general restoration applied to the balanced
middle `"+F"` with settings angle 15, segment length 1. -/
theorem bracket_pop_restores_witness :
    drawScan ⟨15, 1, 2, 3, 0⟩ ('[' :: ['+', 'F'] ++ ']' :: ['F'])
        ⟨((0:ℝ), (0:ℝ)), 90, [], 0, []⟩ =
      drawScan ⟨15, 1, 2, 3, 0⟩ ['F']
        { drawScan ⟨15, 1, 2, 3, 0⟩ ['+', 'F']
            { (⟨((0:ℝ), (0:ℝ)), 90, [], 0, []⟩ : Turtle) with
              stack := ((((0:ℝ), (0:ℝ)), 90)) ::
                (⟨((0:ℝ), (0:ℝ)), 90, [], 0, []⟩ : Turtle).stack } with
          pos := ((0:ℝ), (0:ℝ)), angle := 90, stack := [] } :=
  bracket_pop_restores.1 ⟨15, 1, 2, 3, 0⟩ ['+', 'F'] ['F']
    ⟨((0:ℝ), (0:ℝ)), 90, [], 0, []⟩ (by decide)

/-!
## `Plant` construction and `Plant.get_mutation` (`plant.py`, lines 55-187)
-/

/-- The `Plant` object: the `LSystem` slots (`alphabet`, `rules`, `axiom`,
`state`) plus `draw_settings`, `length` and the cached `render_funcs`.
Python's attribute `axiom` is a Lean keyword and is embedded as `axm`. -/
structure Plant where
  alphabet : List Char
  rules : Rules
  axm : List Char
  state : List Char
  draw_settings : DrawSettings
  length : ℚ
  render_funcs : List RenderCmd

/-- `Plant.__init__(growth_rules, axiom, draw_settings, length)`: install
`self.get_length_rule(length) | growth_rules` as the rule table, then
`regrow()` — reset the state to the axiom, `step(4)` (consuming weighted
draws from the oracle `σ`), and cache `update_draw_settings`'s render
functions. -/
noncomputable def Plant.init (growth_rules : Rules) (axm : List Char)
    (ds : DrawSettings) (len : ℚ) (σ : Nat → Nat) : Plant :=
  let rules := mergeRules (get_length_rule len) growth_rules
  let grown := stepLS rules σ 4 (axm, 0)
  { alphabet := alphabetChars
    rules := rules
    axm := axm
    state := grown.1
    draw_settings := ds
    length := len
    render_funcs := update_draw_settings ds grown.1 }

/-- The draws used to mutate one branch inside `get_mutation`: the
operator/draws of the first `get_mutated_branch` call, the
`random.random() < 0.25` coin, and the operator/draws of the optional
second call. -/
structure BranchMutDraws where
  m1 : Nat
  d1 : MutDraws
  again : Bool
  m2 : Nat
  d2 : MutDraws

/-- Placeholder draw record used only as the `getD` fallback when reading
draw lists; its operator index 10 falls into the source's unreachable
`case _: return branch` arm, so it never edits anything. -/
def idleBranchDraws : BranchMutDraws :=
  ⟨10, ⟨0, 1, ⟨'+', 1, false, 1⟩, 'f'⟩, false, 10, ⟨0, 1, ⟨'+', 1, false, 1⟩, 'f'⟩⟩

/-- One branch mutation inside `get_mutation`: `get_mutated_branch`, then
with probability 1/4 (the `again` draw) `get_mutated_branch` again. -/
def mutateBranchWith (b : List Char) (bd : BranchMutDraws) : List Char :=
  let r1 := get_mutated_branch b bd.m1 bd.d1
  if bd.again then get_mutated_branch r1 bd.m2 bd.d2 else r1

/-- All draws consumed by one `get_mutation` call: per-branch mutation
draws, the weight perturbations `uniform(max(0.1, p - 0.15), p + 0.15)`
(one oracle value per candidate; the interval constraint is a hypothesis
where needed), the new length `uniform(max(0.5, length - 0.35),
min(2.5, length + 0.35))`, and the oracle consumed by the new plant's
`step(4)`. -/
structure MutationDraws where
  branchDraws : List BranchMutDraws
  probDraws : List ℚ
  lengthDraw : ℚ
  stepOracle : Nat → Nat

/-- `max(0.5, self.length - 0.35)`, the lower end of the new-length
interval (`plant.py` lines 148 and 177). -/
def mutationLengthLo (len : ℚ) : ℚ := max (1 / 2) (len - 7 / 20)

/-- `min(2.5, self.length + 0.35)`, the upper end of the new-length
interval (`plant.py` lines 148 and 177). -/
def mutationLengthHi (len : ℚ) : ℚ := min (5 / 2) (len + 7 / 20)

/-- `Plant.get_mutation()`, in receiver-passing style: the first component
is the receiver after the call (the method never assigns to `self`), the
second the constructed plant.  `none` models the `KeyError` of
`self.rules['X']` when no `X` rule exists (every plant the program builds
has one).  The `isinstance(rules, str)` test becomes the match on the rule
body. -/
noncomputable def get_mutation (p : Plant) (dr : MutationDraws) :
    Plant × Option Plant :=
  match lookupRule p.rules 'X' with
  | none => (p, none)
  | some (RuleBody.fixed rule) =>
    let new_rule := mutateBranchWith rule (dr.branchDraws.getD 0 idleBranchDraws)
    (p, some (Plant.init [('X', RuleBody.fixed new_rule)] p.axm
      p.draw_settings dr.lengthDraw dr.stepOracle))
  | some (RuleBody.weighted pop wts) =>
    let new_branches := pop.mapIdx
      (fun i b => mutateBranchWith b (dr.branchDraws.getD i idleBranchDraws))
    let new_probabilities := wts.mapIdx (fun i _ => dr.probDraws.getD i 0)
    (p, some (Plant.init [('X', RuleBody.weighted new_branches new_probabilities)]
      p.axm p.draw_settings dr.lengthDraw dr.stepOracle))

/-- Claim C7: when the receiver's length lies in `[0.5, 2.5]`, the
new-length interval `[max(0.5, len-0.35), min(2.5, len+0.35)]` is a
well-formed subinterval, and the plant returned by `get_mutation` — whose
length is drawn from that interval — again has length in `[0.5, 2.5]`. -/
theorem get_mutation_length_bounds (p : Plant) (dr : MutationDraws)
    (newP : Plant) (h1 : 1 / 2 ≤ p.length) (h2 : p.length ≤ 5 / 2)
    (hlo : mutationLengthLo p.length ≤ dr.lengthDraw)
    (hhi : dr.lengthDraw ≤ mutationLengthHi p.length)
    (hres : (get_mutation p dr).2 = some newP) :
    mutationLengthLo p.length ≤ mutationLengthHi p.length ∧
      1 / 2 ≤ newP.length ∧ newP.length ≤ 5 / 2 := by
  have hlo' := hlo
  have hhi' := hhi
  unfold mutationLengthLo at hlo'
  unfold mutationLengthHi at hhi'
  have hlen : newP.length = dr.lengthDraw := by
    unfold get_mutation at hres
    cases hX : lookupRule p.rules 'X' with
    | none => rw [hX] at hres; simp at hres
    | some body =>
      rw [hX] at hres
      cases body with
      | fixed rule =>
        simp only [Option.some.injEq] at hres
        rw [← hres]
        rfl
      | weighted pop wts =>
        simp only [Option.some.injEq] at hres
        rw [← hres]
        rfl
  refine ⟨?_, ?_, ?_⟩
  · unfold mutationLengthLo mutationLengthHi
    refine le_min (max_le (by norm_num) (by linarith)) ?_
    exact max_le (by linarith) (by linarith)
  · rw [hlen]
    exact le_trans (le_max_left _ _) hlo'
  · rw [hlen]
    exact le_trans hhi' (min_le_left _ _)

/-- Claim C10: `get_mutation` leaves the receiver completely unchanged —
rules, axiom, state, length and draw settings are the same after the call —
and returns a freshly constructed plant (built by the `Plant` constructor
from the mutated rules, the receiver's axiom and draw settings, and the
new length). -/
theorem get_mutation_frame (p : Plant) (dr : MutationDraws)
    (body : RuleBody) (hX : lookupRule p.rules 'X' = some body) :
    (get_mutation p dr).1.rules = p.rules ∧
      (get_mutation p dr).1.axm = p.axm ∧
      (get_mutation p dr).1.state = p.state ∧
      (get_mutation p dr).1.length = p.length ∧
      (get_mutation p dr).1.draw_settings = p.draw_settings ∧
      ∃ growth, (get_mutation p dr).2 =
        some (Plant.init growth p.axm p.draw_settings dr.lengthDraw
          dr.stepOracle) := by
  have hfst : (get_mutation p dr).1 = p := by
    unfold get_mutation
    cases lookupRule p.rules 'X' with
    | none => rfl
    | some b => cases b <;> rfl
  refine ⟨by rw [hfst], by rw [hfst], by rw [hfst], by rw [hfst],
    by rw [hfst], ?_⟩
  unfold get_mutation
  rw [hX]
  cases body with
  | fixed rule => exact ⟨_, rfl⟩
  | weighted pop wts => exact ⟨_, rfl⟩

/-- Concrete receiver for the mutation witnesses: a plant over the fixed
rule `X → X` with length 1.5. -/
noncomputable def witnessPlant : Plant :=
  Plant.init [('X', RuleBody.fixed ['X'])] ['X'] ⟨15, 1, 2, 3, 0⟩ (3 / 2)
    (fun _ => 0)

/-- Concrete draws for the mutation witnesses: empty branch-draw lists (the
idle fallback applies), length draw 1.5, zero oracle. -/
def witnessDraws : MutationDraws := ⟨[], [], 3 / 2, fun _ => 0⟩

/-- The plant `get_mutation witnessPlant witnessDraws` constructs. -/
noncomputable def witnessNewPlant : Plant :=
  Plant.init [('X', RuleBody.fixed (mutateBranchWith ['X'] idleBranchDraws))]
    witnessPlant.axm witnessPlant.draw_settings (3 / 2) (fun _ => 0)

/-- Claim C7, witness: the concrete mutation keeps the length inside
`[0.5, 2.5]`. -/
theorem get_mutation_length_bounds_witness :
    mutationLengthLo witnessPlant.length ≤
        mutationLengthHi witnessPlant.length ∧
      1 / 2 ≤ witnessNewPlant.length ∧ witnessNewPlant.length ≤ 5 / 2 :=
  get_mutation_length_bounds witnessPlant witnessDraws witnessNewPlant
    (by
      have h : witnessPlant.length = 3 / 2 := rfl
      rw [h]; norm_num)
    (by
      have h : witnessPlant.length = 3 / 2 := rfl
      rw [h]; norm_num)
    (by
      have h : witnessPlant.length = 3 / 2 := rfl
      have h2 : witnessDraws.lengthDraw = 3 / 2 := rfl
      rw [h, h2]; norm_num [mutationLengthLo, max_le_iff])
    (by
      have h : witnessPlant.length = 3 / 2 := rfl
      have h2 : witnessDraws.lengthDraw = 3 / 2 := rfl
      rw [h, h2]; norm_num [mutationLengthHi, le_min_iff])
    rfl

/-- Claim C10, witness: the concrete mutation leaves the receiver's fields
unchanged and returns a freshly constructed plant. -/
theorem get_mutation_frame_witness :
    (get_mutation witnessPlant witnessDraws).1.rules = witnessPlant.rules ∧
      (get_mutation witnessPlant witnessDraws).1.axm = witnessPlant.axm ∧
      (get_mutation witnessPlant witnessDraws).1.state = witnessPlant.state ∧
      (get_mutation witnessPlant witnessDraws).1.length =
        witnessPlant.length ∧
      (get_mutation witnessPlant witnessDraws).1.draw_settings =
        witnessPlant.draw_settings ∧
      ∃ growth, (get_mutation witnessPlant witnessDraws).2 =
        some (Plant.init growth witnessPlant.axm witnessPlant.draw_settings
          witnessDraws.lengthDraw witnessDraws.stepOracle) :=
  get_mutation_frame witnessPlant witnessDraws (RuleBody.fixed ['X']) rfl

end PlantGen
